import Mathlib

/-!
Verification of the prosemirror-utils fork (`src/node.ts`, `src/selection.ts`,
and the transaction-mutator module): a shallow embedding of the document tree,
resolved positions, selections and transactions, with the library's functions
translated from the TypeScript source, and theorems settling the specification
claims about them.

The document tree and its position arithmetic follow the external
prosemirror-model collaborator: a text node's size is its text length, a leaf
node has size 1, and any other node has size 2 + the total size of its
children (accounting for its open and close tokens).  Transactions are kept as
an append-only log of primitive edit steps plus a logical timestamp; applying
the steps to the document is the external commit machinery the library never
invokes itself.
-/

namespace PMU

/-- Node type discriminants (schema node-type names). -/
abbrev NodeTy := String

/-- A document tree node: a text node (with the length of its text), a leaf
(atom) node with no content, or an interior node with an ordered list of
children. -/
inductive PMNode where
  | text (ty : NodeTy) (len : Nat)
  | leaf (ty : NodeTy)
  | node (ty : NodeTy) (children : List PMNode)

/-- The type discriminant of a node. -/
def PMNode.tyOf : PMNode → NodeTy
  | .text ty _ => ty
  | .leaf ty => ty
  | .node ty _ => ty

/-- Whether the node is a text node (`node.isText`). -/
def PMNode.isText : PMNode → Bool
  | .text _ _ => true
  | _ => false

/-- The node's list of children (empty for text and leaf nodes). -/
def PMNode.childrenL : PMNode → List PMNode
  | .node _ cs => cs
  | _ => []

mutual

/-- `node.nodeSize`: text nodes take their text length, leaf nodes take 1,
interior nodes take 2 plus their content size. -/
def nodeSize : PMNode → Nat
  | .text _ len => len
  | .leaf _ => 1
  | .node _ cs => 2 + fragSize cs

/-- `fragment.size`: total size of a list of sibling nodes. -/
def fragSize : List PMNode → Nat
  | [] => 0
  | c :: cs => nodeSize c + fragSize cs

end

/-- A node's own content size (`node.content.size`). -/
def contentSize (n : PMNode) : Nat := fragSize n.childrenL

/-- A `{node, pos}` pair as produced by `flatten`. -/
structure NodeWithPos where
  node : PMNode
  pos : Nat

mutual

/-- One pass of `node.descendants` as used by `flatten`: visit each sibling at
its offset, recursing into a child's own content (at offset + 1) only when
`descend` holds.  Children with empty content contribute no recursive
entries either way. -/
def flatFrag (descend : Bool) : List PMNode → Nat → List NodeWithPos
  | [], _ => []
  | c :: rest, base =>
      ⟨c, base⟩ :: (flatChild descend c base ++ flatFrag descend rest (base + nodeSize c))

/-- Recursive step of `flatFrag` for a single child. -/
def flatChild (descend : Bool) : PMNode → Nat → List NodeWithPos
  | .node _ cs, base => if descend then flatFrag descend cs (base + 1) else []
  | _, _ => []

end

/-- Core of `flatten` on a present node: the JavaScript callback pushes every
visited child and returns `false` (suppressing recursion) whenever `descend`
is falsy; `undefined`, `null` and `false` are all falsy, so only an explicit
`true` argument descends. -/
def flattenL (n : PMNode) (descend : Option Bool) : List NodeWithPos :=
  flatFrag (descend == some true) n.childrenL 0

/-- `flatten(node, descend)` from `src/node.ts`: throws
`Invalid "node" parameter` when `node` is absent, otherwise collects
descendants via `node.descendants`.  The `descend` parameter is declared
optional with no default value. -/
def flatten (node : Option PMNode) (descend : Option Bool) :
    Except String (List NodeWithPos) :=
  match node with
  | none => .error "Invalid \"node\" parameter"
  | some n => .ok (flattenL n descend)

/-- `findChildren(node, predicate, descend)` from `src/node.ts`: checks `node`
then `predicate` for absence, then filters `flatten(node, descend)` by the
predicate applied to each entry's node. -/
def findChildren (node : Option PMNode) (predicate : Option (PMNode → Bool))
    (descend : Option Bool) : Except String (List NodeWithPos) :=
  match node with
  | none => .error "Invalid \"node\" parameter"
  | some n =>
    match predicate with
    | none => .error "Invalid \"predicate\" parameter"
    | some p => .ok ((flattenL n descend).filter fun child => p child.node)

/-- `findChildrenByType(node, nodeType, descend)`: `findChildren` with the
predicate `child.type === nodeType`. -/
def findChildrenByType (node : Option PMNode) (nodeType : NodeTy)
    (descend : Option Bool) : Except String (List NodeWithPos) :=
  findChildren node (some fun child => child.tyOf == nodeType) descend

/-- `findTextNodes(node, descend)`: `findChildren` with the `isText`
predicate. -/
def findTextNodes (node : Option PMNode) (descend : Option Bool) :
    Except String (List NodeWithPos) :=
  findChildren node (some fun child => child.isText) descend

/-- `contains(node, nodeType)` from `src/node.ts`: tests whether
`findChildrenByType(node, nodeType, null)` is non-empty.  The third argument
is the literal `null`. -/
def contains (node : Option PMNode) (nodeType : NodeTy) : Except String Bool :=
  (findChildrenByType node nodeType none).map fun l => !l.isEmpty

/-! ## Resolved positions

`ResolvedPos` and `Node.resolve` belong to the external prosemirror-model
collaborator; the library consumes them through `tr.doc.resolve(position)` and
the depth-indexed accessors, so they are embedded here following the
collaborator's documented algorithm.  The `path` holds, for each depth, the
ancestor node at that depth, the child index within it where the position
falls, and the absolute position immediately before that child. -/

/-- One `path` entry of a resolved position. -/
structure PathEntry where
  node : PMNode
  idx : Nat
  beforePos : Nat

/-- A default path entry used only for out-of-range accessor lookups (the
depth arguments used by the library always stay in range). -/
def defaultEntry : PathEntry := ⟨.leaf "", 0, 0⟩

/-- A resolved position: the absolute position, the ancestor path from the
document root down to the deepest containing node, and the offset of the
position within that deepest node's content. -/
structure ResolvedPos where
  pos : Nat
  path : List PathEntry
  parentOffset : Nat

/-- `Fragment.findIndex(pos)` of the collaborator: locate the child boundary
at or before `pos`, returning the child index and the offset of that boundary
within the fragment.  A position equal to a child's end lands after that
child.  Returns `none` for a position beyond the fragment (the collaborator
throws there). -/
def findIndexGo (pos : Nat) : List PMNode → Nat → Nat → Nat × Nat
  | [], i, curPos => (i, curPos)
  | c :: cs, i, curPos =>
    let e := curPos + nodeSize c
    if pos ≤ e then (if e = pos then (i + 1, e) else (i, curPos))
    else findIndexGo pos cs (i + 1) e

/-- `Fragment.findIndex` with the boundary special cases of the source. -/
def findIndex (cs : List PMNode) (pos : Nat) : Option (Nat × Nat) :=
  if pos = 0 then some (0, 0)
  else if pos = fragSize cs then some (cs.length, pos)
  else if fragSize cs < pos then none
  else some (findIndexGo pos cs 0 0)

/-- The descent loop of `Node.resolve`: at each level find the child boundary
for the current parent offset; stop when the offset lands exactly on a
boundary or inside a text child, otherwise descend into the child.  Driven by
`fuel` (one unit per tree level); `resolve` supplies more fuel than any
document's depth, so the `none` of exhausted fuel is never reached on real
inputs. -/
def resolveGo : Nat → PMNode → Nat → Nat → Option (List PathEntry × Nat)
  | 0, _, _, _ => none
  | fuel + 1, n, start, parentOffset =>
    match findIndex n.childrenL parentOffset with
    | none => none
    | some (index, offset) =>
      let entry : PathEntry := ⟨n, index, start + offset⟩
      let rem := parentOffset - offset
      if rem = 0 then some ([entry], parentOffset)
      else
        match n.childrenL.get? index with
        | none => none
        | some c =>
          if c.isText then some ([entry], parentOffset)
          else
            match resolveGo fuel c (start + offset + 1) (rem - 1) with
            | none => none
            | some (rest, po) => some (entry :: rest, po)

/-- `doc.resolve(pos)`: bounds-check the position against the document's
content size, then run the descent loop.  `none` models the collaborator's
thrown `RangeError`. -/
def resolve (doc : PMNode) (pos : Nat) : Option ResolvedPos :=
  if pos ≤ contentSize doc then
    (resolveGo (nodeSize doc + 1) doc 0 pos).map fun pr => ⟨pos, pr.1, pr.2⟩
  else none

/-- The resolved position's depth (`$pos.depth`). -/
def ResolvedPos.depth (rp : ResolvedPos) : Nat := rp.path.length - 1

/-- The path entry at a given depth. -/
def ResolvedPos.entryAt (rp : ResolvedPos) (d : Nat) : PathEntry :=
  rp.path.getD d defaultEntry

/-- `$pos.node(d)`: the ancestor node at depth `d`. -/
def ResolvedPos.node (rp : ResolvedPos) (d : Nat) : PMNode := (rp.entryAt d).node

/-- `$pos.index(d)`: the child index at depth `d`. -/
def ResolvedPos.index (rp : ResolvedPos) (d : Nat) : Nat := (rp.entryAt d).idx

/-- `$pos.before(d)` for `d ≥ 1`: the absolute position immediately before
the ancestor at depth `d` (the collaborator throws for `d = 0`; the library
only reaches this accessor with `d ≥ 1` wherever this total version is
used). -/
def ResolvedPos.beforeN (rp : ResolvedPos) (d : Nat) : Nat :=
  (rp.entryAt (d - 1)).beforePos

/-- `$pos.after(d)` for `d ≥ 1`: the absolute position immediately after the
ancestor at depth `d`. -/
def ResolvedPos.afterN (rp : ResolvedPos) (d : Nat) : Nat :=
  rp.beforeN d + nodeSize (rp.node d)

/-- `$pos.start(d)`: where the ancestor's content starts (0 at the root). -/
def ResolvedPos.start (rp : ResolvedPos) (d : Nat) : Nat :=
  if d = 0 then 0 else (rp.entryAt (d - 1)).beforePos + 1

/-- `$pos.parent`: the deepest node containing the position. -/
def ResolvedPos.parent (rp : ResolvedPos) : PMNode := rp.node rp.depth

/-- `$pos.textOffset`: how far the position sits inside a text child (0 when
it lies on a node boundary). -/
def ResolvedPos.textOffset (rp : ResolvedPos) : Nat :=
  rp.pos - (rp.entryAt rp.depth).beforePos

/-- `$pos.indexAfter(d)`: the index after the position at depth `d`. -/
def ResolvedPos.indexAfter (rp : ResolvedPos) (d : Nat) : Nat :=
  if d = rp.depth ∧ rp.textOffset = 0 then rp.index d else rp.index d + 1

/-! ## Selections and transactions

The selection is the tagged union of the external prosemirror-state
collaborator: a range selection carries its two resolved endpoints, a node
selection additionally wraps the selected node (the library discriminates by
the truthiness of the `node` field).  A transaction holds the pending
document, the current selection, the append-only log of primitive edit steps,
and its logical timestamp; applying steps to the document is the external
commit machinery. -/

/-- A primitive edit step recorded by a transaction. -/
inductive Step where
  | delete (f t : Nat)
  | insert (pos : Nat) (node : PMNode)
  | replaceWith (f t : Nat) (node : PMNode)

/-- The current selection of a transaction: `selFrom`/`selTo` are `$from` and
`$to`; `node` is present exactly for the node-selection variant. -/
structure Selection where
  selFrom : ResolvedPos
  selTo : ResolvedPos
  node : Option PMNode

/-- A pending transaction. -/
structure Transaction where
  doc : PMNode
  curSelection : Selection
  steps : List Step
  time : Nat

/-- `tr.delete(from, to)`: record a delete step. -/
def Transaction.delete (tr : Transaction) (f t : Nat) : Transaction :=
  { tr with steps := tr.steps ++ [.delete f t] }

/-- `tr.insert(pos, node)`: record an insert step. -/
def Transaction.insert (tr : Transaction) (pos : Nat) (n : PMNode) : Transaction :=
  { tr with steps := tr.steps ++ [.insert pos n] }

/-- `tr.replaceWith(from, to, node)`: record a replace step. -/
def Transaction.replaceWith (tr : Transaction) (f t : Nat) (n : PMNode) : Transaction :=
  { tr with steps := tr.steps ++ [.replaceWith f t n] }

/-- `tr.setTime(t)`. -/
def Transaction.setTime (tr : Transaction) (t : Nat) : Transaction :=
  { tr with time := t }

/-- `cloneTr(tr)` from the mutator module:
`Object.assign(Object.create(tr), tr).setTime(Date.now())` — a field-wise
copy of the transaction with a refreshed timestamp.  The fresh `Date.now()`
value is modelled as a strictly newer logical timestamp, which is what makes
the clone observably distinct from its input. -/
def cloneTr (tr : Transaction) : Transaction := tr.setTime (tr.time + 1)

/-! ## AncestorSearch (`src/selection.ts`) -/

/-- The `{pos, start, depth, node}` record returned by the ancestor
searches. -/
structure ContentNodeWithPos where
  pos : Nat
  start : Nat
  depth : Nat
  node : PMNode

/-- The descending loop of `findParentNodeClosestToPos`: try depth `i`, then
`i - 1`, stopping above depth 0. -/
def fpnGo (pred : PMNode → Bool) (rp : ResolvedPos) : Nat → Option ContentNodeWithPos
  | 0 => none
  | i + 1 =>
    let nd := rp.node (i + 1)
    if pred nd then
      some ⟨if i + 1 > 0 then rp.beforeN (i + 1) else 0, rp.start (i + 1), i + 1, nd⟩
    else fpnGo pred rp i

/-- `findParentNodeClosestToPos($pos, predicate)` from `src/selection.ts`:
scan depths from `$pos.depth` down to 1, returning the first ancestor the
predicate accepts, packaged as `{pos, start, depth, node}`. -/
def findParentNodeClosestToPos (rp : ResolvedPos) (pred : PMNode → Bool) :
    Option ContentNodeWithPos :=
  fpnGo pred rp rp.depth

/-- `findParentNode(predicate)(selection)`: the same search started from the
selection's `$from`. -/
def findParentNode (pred : PMNode → Bool) (sel : Selection) :
    Option ContentNodeWithPos :=
  findParentNodeClosestToPos sel.selFrom pred

/-- `hasParentNode(predicate)(selection)`: truthiness of `findParentNode`. -/
def hasParentNode (pred : PMNode → Bool) (sel : Selection) : Bool :=
  (findParentNode pred sel).isSome

/-- Modelled from the spec: `equalNodeType` lives in the repository's missing
`helpers` module; per the spec the type-based predicate is "node's type is a
member of the given type or type set". -/
def equalNodeType (nodeType : List NodeTy) (n : PMNode) : Bool :=
  nodeType.contains n.tyOf

/-- `findParentNodeOfType(nodeType)(selection)`. -/
def findParentNodeOfType (nodeType : List NodeTy) (sel : Selection) :
    Option ContentNodeWithPos :=
  findParentNode (fun n => equalNodeType nodeType n) sel

/-! ## PresentationProjection (`src/selection.ts`) -/

/-- A rendered-view (DOM) node: its only discriminant the library reads is
whether it is a text fragment, plus its ordered child list. -/
inductive DomTree where
  | mk (isTextNode : Bool) (childNodes : List DomTree)

/-- Whether the view node is a text fragment (`nodeType === Node.TEXT_NODE`). -/
def DomTree.isTextNode : DomTree → Bool
  | .mk b _ => b

/-- The view node's `childNodes` list. -/
def DomTree.childNodes : DomTree → List DomTree
  | .mk _ cs => cs

/-- What the view-position mapper returns for a position: the `{node, offset}`
pair of `domAtPos`, together with that node's `parentNode` link (a property
of the rendered view, supplied alongside since the embedding's trees carry no
upward pointers; `none` models a null parent). -/
structure DomAtPosResult where
  node : DomTree
  offset : Nat
  nodeParent : Option DomTree

/-- `findDomRefAtPos(position, domAtPos)` from `src/selection.ts`: map the
position, then normalize — a text view node yields its parent element; an
absent or text child at `offset` yields the view node itself; any other
child is returned as is.  `none` models the null parent of a detached text
node. -/
def findDomRefAtPos (position : Nat) (domAtPos : Nat → DomAtPosResult) :
    Option DomTree :=
  let dom := domAtPos position
  let node := dom.node.childNodes.get? dom.offset
  if dom.node.isTextNode then dom.nodeParent
  else
    match node with
    | none => some dom.node
    | some c => if c.isTextNode then some dom.node else some c

/-! ## TransactionMutators (the unnamed mutator module)

The schema's capability oracle `canReplaceWith` belongs to the external
collaborator; it is passed in as a function `can` of the receiver node, the
child index range and the candidate type, mirroring the method call
`receiver.canReplaceWith(index, indexAfter, type)`.  Each mutator returns
`Option Transaction`, with `none` modelling an exception escaping from the
collaborator's `resolve`/`before` calls on an invalid position (the library
itself never throws). -/

/-- `replaceNodeAtPos(position, node)(tr)`: resolve the position, take
`from = $pos.before($pos.depth)` and `to = $pos.after($pos.depth)`, and —
when `tr.doc.canReplaceWith($pos.index($pos.depth), $pos.indexAfter($pos.depth),
node.type)` holds — commit `replaceWith(from, to, node)` and return the
clone; otherwise return the input transaction itself.  Note the capability
receiver is `tr.doc`, the document root.  A position resolving at depth 0
makes `before` throw (`none`). -/
def replaceNodeAtPos (can : PMNode → Nat → Nat → NodeTy → Bool)
    (position : Nat) (n : PMNode) (tr : Transaction) : Option Transaction :=
  match resolve tr.doc position with
  | none => none
  | some rp =>
    if rp.depth = 0 then none
    else
      let f := rp.beforeN rp.depth
      let t := rp.afterN rp.depth
      if can tr.doc (rp.index rp.depth) (rp.indexAfter rp.depth) n.tyOf then
        some (cloneTr (tr.replaceWith f t n))
      else some tr

/-- `removeNodeAtPos(position, node)(tr)`: resolve the position and
unconditionally commit `delete($pos.before($pos.depth), $pos.after($pos.depth))`,
returning the clone.  The `node` parameter is declared but never read. -/
def removeNodeAtPos (position : Nat) (node : Option PMNode) (tr : Transaction) :
    Option Transaction :=
  match resolve tr.doc position with
  | none => none
  | some rp =>
    if rp.depth = 0 then none
    else some (cloneTr (tr.delete (rp.beforeN rp.depth) (rp.afterN rp.depth)))

/-- `removeParentNodeOfType(nodeType)(tr)`: find the nearest ancestor of the
given type(s) from the transaction's current selection and delegate to
`removeNodeAtPos(parent.pos)` — with the `node` argument omitted — else
return the input unchanged. -/
def removeParentNodeOfType (nodeType : List NodeTy) (tr : Transaction) :
    Option Transaction :=
  match findParentNodeOfType nodeType tr.curSelection with
  | some parent => removeNodeAtPos parent.pos none tr
  | none => some tr

/-- `replaceParentNodeOfType(nodeType, node)(tr)`: same lookup, delegating to
`replaceNodeAtPos`. -/
def replaceParentNodeOfType (can : PMNode → Nat → Nat → NodeTy → Bool)
    (nodeType : List NodeTy) (n : PMNode) (tr : Transaction) :
    Option Transaction :=
  match findParentNodeOfType nodeType tr.curSelection with
  | some parent => replaceNodeAtPos can parent.pos n tr
  | none => some tr

/-- `removeSelectedNode(tr)`: when the current selection carries a `node`
(the node-selection variant), commit `delete($from.pos, $to.pos)` and return
the clone; otherwise return the input transaction itself. -/
def removeSelectedNode (tr : Transaction) : Transaction :=
  match tr.curSelection.node with
  | some _ =>
    cloneTr (tr.delete tr.curSelection.selFrom.pos tr.curSelection.selTo.pos)
  | none => tr

/-- The descending loop of `safeInsert`: for `i` from the cursor's depth down
to 1, resolve `$from.after(i)` and test whether that position's parent can
take the node at its index; insert there on the first success, fall through
to the unchanged transaction when every depth refuses. -/
def siGo (can : PMNode → Nat → Nat → NodeTy → Bool) (n : PMNode)
    (tr : Transaction) (rpF : ResolvedPos) : Nat → Option Transaction
  | 0 => some tr
  | i + 1 =>
    let pos := rpF.afterN (i + 1)
    match resolve tr.doc pos with
    | none => none
    | some rp =>
      if can rp.parent (rp.index rp.depth) (rp.index rp.depth) n.tyOf then
        some (cloneTr (tr.insert pos n))
      else siGo can n tr rpF i

/-- `safeInsert(node)(tr)`: insert at the cursor when
`$from.parent.canReplaceWith(index, index, node.type)` holds for the cursor's
own index; otherwise bubble outward through `siGo`. -/
def safeInsert (can : PMNode → Nat → Nat → NodeTy → Bool) (n : PMNode)
    (tr : Transaction) : Option Transaction :=
  let rpF := tr.curSelection.selFrom
  let index := rpF.index rpF.depth
  if can rpF.parent index index n.tyOf then
    some (cloneTr (tr.insert rpF.pos n))
  else siGo can n tr rpF rpF.depth

/-- Whether the `safeInsert` loop accepts depth `i`: `$from.after(i)`
resolves and its parent admits the node's type at that position's index. -/
def siAccept (can : PMNode → Nat → Nat → NodeTy → Bool) (n : PMNode)
    (tr : Transaction) (rpF : ResolvedPos) (i : Nat) : Bool :=
  match resolve tr.doc (rpF.afterN i) with
  | none => false
  | some rp => can rp.parent (rp.index rp.depth) (rp.index rp.depth) n.tyOf

/-! ## Concrete fixtures

Small documents, selections and oracles used to evaluate the functions at
concrete inputs. -/

/-- A table whose only cell sits behind a row wrapper, at depth 2. -/
def tableEx : PMNode := .node "table" [.node "row" [.node "cell" []]]

/-- A document with one paragraph holding one text node. -/
def docP : PMNode := .node "doc" [.node "paragraph" [.text "text" 2]]

/-- `doc(blockquote(paragraph))` with an empty paragraph. -/
def doc2 : PMNode := .node "doc" [.node "blockquote" [.node "paragraph" []]]

/-- The blockquote of `doc3`. -/
def bqEx : PMNode := .node "blockquote" [.node "paragraph" [.text "text" 1]]

/-- `doc(blockquote(paragraph(text)))` with one character of text. -/
def doc3 : PMNode := .node "doc" [bqEx]

/-- A degenerate resolved position, used as `Option.getD` fallback. -/
def emptyRP : ResolvedPos := ⟨0, [], 0⟩

/-- A plain range (text-caret) selection fixture. -/
def dummySel : Selection := ⟨emptyRP, emptyRP, none⟩

/-- A transaction over `doc2` with a range selection and empty step log. -/
def trX : Transaction := ⟨doc2, dummySel, [], 0⟩

/-- A leaf node used as replacement material. -/
def nX : PMNode := .leaf "figure"

/-- A capability oracle that accepts exactly when the receiver is the
document root. -/
def canDoc : PMNode → Nat → Nat → NodeTy → Bool := fun c _ _ _ => c.tyOf == "doc"

/-- The resolved position of offset 2 in `doc2` (depth 2, inside the
paragraph). -/
def rpX : ResolvedPos := (resolve doc2 2).getD emptyRP

/-- The resolved position of offset 3 in `doc3` (depth 2, at the end of the
paragraph's text). -/
def rpG : ResolvedPos := (resolve doc3 3).getD emptyRP

/-- A transaction over `doc3` whose cursor sits at offset 3. -/
def trG : Transaction := ⟨doc3, ⟨rpG, rpG, none⟩, [], 0⟩

/-- A leaf node of type `"x"`, insertable only into the root under
`canG`. -/
def nN : PMNode := .leaf "x"

/-- A capability oracle where only the grandparent (the document root)
accepts type `"x"`. -/
def canG : PMNode → Nat → Nat → NodeTy → Bool :=
  fun c _ _ ty => c.tyOf == "doc" && ty == "x"

/-- Predicate matching blockquote nodes. -/
def predBq : PMNode → Bool := fun nd => nd.tyOf == "blockquote"

/-- The record `findParentNodeClosestToPos` returns for `rpG` and
`predBq`. -/
def cnEx : ContentNodeWithPos := ⟨0, 1, 1, bqEx⟩

/-- A transaction over `doc3` whose current selection is a node selection of
the blockquote (span 0..5). -/
def trN : Transaction :=
  ⟨doc3, ⟨(resolve doc3 0).getD emptyRP, (resolve doc3 5).getD emptyRP, some bqEx⟩, [], 7⟩

/-- A text fragment in the rendered view. -/
def domText : DomTree := .mk true []

/-- An element in the rendered view containing one text fragment. -/
def domElem : DomTree := .mk false [domText]

/-- A view-position mapper that always answers with the text fragment inside
`domElem`. -/
def mapperEx : Nat → DomAtPosResult := fun _ => ⟨domText, 0, some domElem⟩

/-- A view-position mapper that answers with `domElem` at offset 0 (whose
child there is a text fragment). -/
def mapperEl : Nat → DomAtPosResult := fun _ => ⟨domElem, 0, none⟩

/-! ## Helper lemmas -/

/-- Cloning bumps the logical timestamp. -/
theorem cloneTr_time (tr : Transaction) : (cloneTr tr).time = tr.time + 1 := rfl

/-- A clone of any transaction sharing the input's timestamp is distinct from
the input: the refreshed timestamp cannot equal the old one. -/
theorem cloneTr_ne (tr tr₂ : Transaction) (h : tr₂.time = tr.time) :
    cloneTr tr₂ ≠ tr := by
  intro he
  have ht := congrArg Transaction.time he
  rw [cloneTr_time, h] at ht
  omega

/-- With `descend` off, the per-child recursion of `flatten` produces
nothing. -/
theorem flatChild_false (c : PMNode) (base : Nat) : flatChild false c base = [] := by
  cases c <;> simp [flatChild]

/-- With `descend` off, the traversal yields exactly the sibling list, in
order. -/
theorem flatFrag_false_map (cs : List PMNode) :
    ∀ base, (flatFrag false cs base).map NodeWithPos.node = cs := by
  induction cs with
  | nil => intro base; simp [flatFrag]
  | cons c rest ih => intro base; simp [flatFrag, flatChild_false, ih]

/-- The descending ancestor loop returns `none` exactly when no depth in
`[1, i]` satisfies the predicate. -/
theorem fpnGo_none_iff (pred : PMNode → Bool) (rp : ResolvedPos) :
    ∀ i, fpnGo pred rp i = none ↔
      ∀ j, 1 ≤ j → j ≤ i → pred (rp.node j) = false := by
  intro i
  induction i with
  | zero =>
    simp only [fpnGo]
    constructor
    · intro _ j h1 h2; omega
    · intro _; trivial
  | succ k ih =>
    simp only [fpnGo]
    by_cases hp : pred (rp.node (k + 1)) = true
    · rw [if_pos hp]
      constructor
      · intro h; exact absurd h (Option.some_ne_none _)
      · intro h
        have hc := h (k + 1) (by omega) (Nat.le_refl _)
        rw [hp] at hc
        exact absurd hc (by decide)
    · have hp' : pred (rp.node (k + 1)) = false := by
        cases hv : pred (rp.node (k + 1)) with
        | true => exact absurd hv hp
        | false => rfl
      rw [if_neg hp, ih]
      constructor
      · intro h j h1 h2
        rcases Nat.lt_or_ge j (k + 1) with hj | hj
        · exact h j h1 (by omega)
        · have hj' : j = k + 1 := by omega
          rw [hj']; exact hp'
      · intro h j h1 h2
        exact h j h1 (by omega)

/-- When the descending ancestor loop finds a record, that record's depth is
in `[1, i]`, its node satisfies the predicate, every strictly deeper depth up
to `i` fails the predicate, and its fields are the accessors at that
depth. -/
theorem fpnGo_some_spec (pred : PMNode → Bool) (rp : ResolvedPos) :
    ∀ i r, fpnGo pred rp i = some r →
      1 ≤ r.depth ∧ r.depth ≤ i ∧ pred (rp.node r.depth) = true ∧
        (∀ j, r.depth < j → j ≤ i → pred (rp.node j) = false) ∧
        r.pos = rp.beforeN r.depth ∧ r.start = rp.start r.depth ∧
        r.node = rp.node r.depth := by
  intro i
  induction i with
  | zero => intro r h; simp [fpnGo] at h
  | succ k ih =>
    intro r h
    simp only [fpnGo] at h
    by_cases hp : pred (rp.node (k + 1)) = true
    · rw [if_pos hp] at h
      rw [if_pos (Nat.succ_pos k)] at h
      have hr : (⟨rp.beforeN (k + 1), rp.start (k + 1), k + 1, rp.node (k + 1)⟩ :
          ContentNodeWithPos) = r := Option.some.inj h
      rw [← hr]
      refine ⟨?_, ?_, hp, ?_, rfl, rfl, rfl⟩
      · show 1 ≤ k + 1; omega
      · show k + 1 ≤ k + 1; omega
      · intro j hj1 hj2
        have hj1' : k + 1 < j := hj1
        omega
    · rw [if_neg hp] at h
      obtain ⟨h1, h2, h3, h4, h5, h6, h7⟩ := ih r h
      refine ⟨h1, by omega, h3, ?_, h5, h6, h7⟩
      intro j hj1 hj2
      rcases Nat.lt_or_ge j (k + 1) with hj | hj
      · exact h4 j hj1 (by omega)
      · have hj' : j = k + 1 := by omega
        rw [hj']
        cases hpv : pred (rp.node (k + 1)) with
        | true => exact absurd hpv hp
        | false => rfl

/-! ## Claim theorems -/

/-- C7: for every node `T`, `flatten(T, descend=false)` visits exactly the
direct children of `T`, in order: mapping each result entry to its node gives
the child list itself, so all siblings appear and no deeper descendant
does. -/
theorem flatten_shallow_direct_children (T : PMNode) :
    (flatten (some T) (some false)).map (fun l => l.map NodeWithPos.node) =
      .ok T.childrenL := by
  simp only [flatten, flattenL, Except.map]
  have : ((some false : Option Bool) == some true) = false := rfl
  rw [this, flatFrag_false_map]

/-- C8: `flatten` signals `Invalid "node" parameter` exactly when its node
argument is absent, and `findChildren` signals the node error for a missing
node and the predicate error for a missing predicate, while fully present
arguments never produce an error. -/
theorem flatten_findChildren_invalid_arguments :
    (∀ d, flatten none d = .error "Invalid \"node\" parameter") ∧
    (∀ n d, flatten (some n) d = .ok (flattenL n d)) ∧
    (∀ p d, findChildren none p d = .error "Invalid \"node\" parameter") ∧
    (∀ n d, findChildren (some n) none d = .error "Invalid \"predicate\" parameter") ∧
    (∀ n p d, findChildren (some n) (some p) d =
      .ok ((flattenL n d).filter fun child => p child.node)) :=
  ⟨fun _ => rfl, fun _ _ => rfl, fun _ _ => rfl, fun _ _ => rfl, fun _ _ _ => rfl⟩

/-- C1 (failing input): `contains` passes the literal `null` as the `descend`
argument, so its search is shallow: for the table whose only cell hides
behind a row wrapper it answers `false`, even though the full-depth
`findChildrenByType(table, cell, true)` finds the cell at position 1. -/
theorem contains_shallow_at_depth :
    contains (some tableEx) "cell" = .ok false ∧
      findChildrenByType (some tableEx) "cell" (some true) =
        .ok [⟨.node "cell" [], 1⟩] := ⟨rfl, rfl⟩

/-- C2 (failing input): `flatten` declares `descend` optional with no default
value, so calling it without the argument behaves shallowly, against its own
doc comment "defaults to `true`": on `doc(paragraph(text))` it returns only
the paragraph, while a `descend = true` call also returns the text node. -/
theorem flatten_default_does_not_descend :
    flatten (some docP) none = .ok [⟨.node "paragraph" [.text "text" 2], 0⟩] ∧
      flattenL docP (some true) =
        [⟨.node "paragraph" [.text "text" 2], 0⟩, ⟨.text "text" 2, 1⟩] := ⟨rfl, rfl⟩

/-- C5: `findParentNodeClosestToPos` scans depths from `$pos.depth` down to 1
and returns the first (innermost) ancestor satisfying the predicate, packaged
as `{pos: before(depth), start: start(depth), depth, node}`; any returned
record has depth at least 1 (never the document root), and the search returns
absent exactly when no ancestor at depth ≥ 1 matches. -/
theorem findParentNodeClosestToPos_spec (rp : ResolvedPos) (pred : PMNode → Bool) :
    (∀ r, findParentNodeClosestToPos rp pred = some r →
      1 ≤ r.depth ∧ r.depth ≤ rp.depth ∧ pred (rp.node r.depth) = true ∧
        (∀ j, r.depth < j → j ≤ rp.depth → pred (rp.node j) = false) ∧
        r.pos = rp.beforeN r.depth ∧ r.start = rp.start r.depth ∧
        r.node = rp.node r.depth) ∧
    (findParentNodeClosestToPos rp pred = none ↔
      ∀ j, 1 ≤ j → j ≤ rp.depth → pred (rp.node j) = false) :=
  ⟨fun r h => fpnGo_some_spec pred rp rp.depth r h, fpnGo_none_iff pred rp rp.depth⟩

/-- Witness for C5 at a concrete input: on the depth-2 position `rpG` of
`doc(blockquote(paragraph(text)))`, the blockquote predicate produces the
record at depth 1 with `pos = 0` and `start = 1`, and the deeper depth 2
fails the predicate. -/
theorem findParentNodeClosestToPos_spec_witness :
    1 ≤ cnEx.depth ∧ predBq (rpG.node cnEx.depth) = true ∧
      predBq (rpG.node 2) = false ∧ cnEx.pos = rpG.beforeN cnEx.depth := by
  have h := (findParentNodeClosestToPos_spec rpG predBq).1 cnEx rfl
  exact ⟨h.1, h.2.2.1, h.2.2.2.1 2 (by decide) (by decide), h.2.2.2.2.1⟩

/-- C6: `removeSelectedNode` acts only on the node-selection variant, where
it commits a delete of exactly the span `[$from.pos, $to.pos]` and returns a
clone distinct from its input; on a range selection it returns the input
transaction itself, unchanged. -/
theorem removeSelectedNode_spec (tr : Transaction) :
    (∀ nd, tr.curSelection.node = some nd →
      removeSelectedNode tr =
          cloneTr (tr.delete tr.curSelection.selFrom.pos tr.curSelection.selTo.pos) ∧
        (removeSelectedNode tr).steps =
          tr.steps ++ [Step.delete tr.curSelection.selFrom.pos tr.curSelection.selTo.pos] ∧
        removeSelectedNode tr ≠ tr) ∧
    (tr.curSelection.node = none → removeSelectedNode tr = tr) := by
  constructor
  · intro nd h
    have he : removeSelectedNode tr =
        cloneTr (tr.delete tr.curSelection.selFrom.pos tr.curSelection.selTo.pos) := by
      unfold removeSelectedNode
      rw [h]
    refine ⟨he, by rw [he]; rfl, by rw [he]; exact cloneTr_ne tr _ rfl⟩
  · intro h
    unfold removeSelectedNode
    rw [h]

/-- Witness for C6 at concrete inputs: on the node-selection transaction
`trN` the function commits the delete of span 0..5 and the result is
distinct from the input, while on the range-selection transaction `trX` it
returns the input itself. -/
theorem removeSelectedNode_spec_witness :
    (removeSelectedNode trN).steps = trN.steps ++ [Step.delete 0 5] ∧
      removeSelectedNode trN ≠ trN ∧ removeSelectedNode trX = trX := by
  have h1 := (removeSelectedNode_spec trN).1 bqEx rfl
  have h2 := (removeSelectedNode_spec trX).2 rfl
  exact ⟨h1.2.1, h1.2.2, h2⟩

/-- C10: `removeNodeAtPos` never reads its `node` parameter: its result is
the same for any two node arguments (including an omitted one, `none`), at
every position and transaction. -/
theorem removeNodeAtPos_ignores_node (position : Nat) (n1 n2 : Option PMNode)
    (tr : Transaction) :
    removeNodeAtPos position n1 tr = removeNodeAtPos position n2 tr := rfl

/-- C9: `findDomRefAtPos` maps the position and normalizes: a text view node
yields its containing element; otherwise an absent or text child at the
mapped offset yields the view node itself, and any other child is returned
as is.  Under the rendered view's invariant that a parent link never points
at a text fragment, every returned reference is element-like, never a text
fragment. -/
theorem findDomRefAtPos_spec (position : Nat) (domAtPos : Nat → DomAtPosResult)
    (hwf : ∀ p q, (domAtPos p).nodeParent = some q → q.isTextNode = false) :
    ((domAtPos position).node.isTextNode = true →
      findDomRefAtPos position domAtPos = (domAtPos position).nodeParent) ∧
    ((domAtPos position).node.isTextNode = false →
      (domAtPos position).node.childNodes.get? (domAtPos position).offset = none →
      findDomRefAtPos position domAtPos = some (domAtPos position).node) ∧
    (∀ c, (domAtPos position).node.isTextNode = false →
      (domAtPos position).node.childNodes.get? (domAtPos position).offset = some c →
      findDomRefAtPos position domAtPos =
        some (if c.isTextNode then (domAtPos position).node else c)) ∧
    (∀ r, findDomRefAtPos position domAtPos = some r → r.isTextNode = false) := by
  refine ⟨?_, ?_, ?_, ?_⟩
  · intro ht
    simp only [findDomRefAtPos]
    rw [ht]
    simp
  · intro ht hc
    simp only [findDomRefAtPos]
    rw [ht, hc]
    simp
  · intro c ht hc
    simp only [findDomRefAtPos]
    rw [ht, hc]
    simp only [Bool.false_eq_true, if_false]
    cases hct : c.isTextNode <;> simp [hct]
  · intro r hr
    simp only [findDomRefAtPos] at hr
    rcases ht : (domAtPos position).node.isTextNode with _ | _
    · rw [ht] at hr
      simp only [Bool.false_eq_true, if_false] at hr
      rcases hc : (domAtPos position).node.childNodes.get?
          (domAtPos position).offset with _ | c
      · rw [hc] at hr
        simp only [Option.some.injEq] at hr
        rw [← hr]; exact ht
      · rw [hc] at hr
        rcases hct : c.isTextNode with _ | _
        · simp only [hct, Bool.false_eq_true, if_false, Option.some.injEq] at hr
          rw [← hr]; exact hct
        · simp only [hct, if_true, Option.some.injEq] at hr
          rw [← hr]; exact ht
    · rw [ht] at hr
      simp only [if_true] at hr
      exact hwf position r hr

/-- Witness for C9 at concrete inputs: a position mapped to the text fragment
inside `domElem` yields the containing `domElem`; a position mapped to
`domElem` at offset 0 (a text child there) yields `domElem` itself — neither
result is a text fragment. -/
theorem findDomRefAtPos_spec_witness :
    findDomRefAtPos 0 mapperEx = some domElem ∧ domElem.isTextNode = false ∧
      findDomRefAtPos 0 mapperEl = some domElem := by
  have h1 := (findDomRefAtPos_spec 0 mapperEx
    (by intro p q h; simp only [mapperEx, Option.some.injEq] at h; rw [← h]; rfl)).1 rfl
  have h2 := (findDomRefAtPos_spec 0 mapperEl
    (by intro p q h; simp [mapperEl] at h)).2.2.1 domText rfl rfl
  exact ⟨h1, rfl, h2⟩

/-- C3 (amended): for a position that resolves at nonzero depth,
`replaceNodeAtPos` returns a transaction distinct from its input iff the
document root's capability check
`tr.doc.canReplaceWith($pos.index(depth), $pos.indexAfter(depth), node.type)`
permits the substitution, in which case it commits
`replaceWith(before(depth), after(depth), node)`; otherwise it returns the
identical input transaction with no edit committed. -/
theorem replaceNodeAtPos_doc_check_spec (can : PMNode → Nat → Nat → NodeTy → Bool)
    (position : Nat) (n : PMNode) (tr : Transaction) (rp : ResolvedPos)
    (h : resolve tr.doc position = some rp) (hd : rp.depth ≠ 0) :
    (can tr.doc (rp.index rp.depth) (rp.indexAfter rp.depth) n.tyOf = true →
      replaceNodeAtPos can position n tr =
          some (cloneTr (tr.replaceWith (rp.beforeN rp.depth) (rp.afterN rp.depth) n)) ∧
        cloneTr (tr.replaceWith (rp.beforeN rp.depth) (rp.afterN rp.depth) n) ≠ tr ∧
        (cloneTr (tr.replaceWith (rp.beforeN rp.depth) (rp.afterN rp.depth) n)).steps =
          tr.steps ++ [Step.replaceWith (rp.beforeN rp.depth) (rp.afterN rp.depth) n]) ∧
    (can tr.doc (rp.index rp.depth) (rp.indexAfter rp.depth) n.tyOf = false →
      replaceNodeAtPos can position n tr = some tr) := by
  constructor
  · intro hc
    refine ⟨?_, cloneTr_ne tr _ rfl, rfl⟩
    unfold replaceNodeAtPos
    rw [h]
    simp only [hd, if_false, hc, if_true]
  · intro hc
    unfold replaceNodeAtPos
    rw [h]
    simp only [hd, if_false, hc, Bool.false_eq_true]

/-- Witness for the amended C3 at a concrete input: position 2 of
`doc(blockquote(paragraph))` resolves at depth 2; under the oracle that
accepts on the document root the function commits
`replaceWith(1, 3, figure)` and returns a distinct transaction. -/
theorem replaceNodeAtPos_doc_check_spec_witness :
    replaceNodeAtPos canDoc 2 nX trX =
        some (cloneTr (trX.replaceWith (rpX.beforeN rpX.depth) (rpX.afterN rpX.depth) nX)) ∧
      cloneTr (trX.replaceWith (rpX.beforeN rpX.depth) (rpX.afterN rpX.depth) nX) ≠ trX :=
  have h := (replaceNodeAtPos_doc_check_spec canDoc 2 nX trX rpX rfl (by decide)).1 rfl
  ⟨h.1, h.2.1⟩

/-- Counterexample to C3 as stated: at position 2 of
`doc(blockquote(paragraph))` (depth 2), with the oracle accepting only on the
document root, `replaceNodeAtPos` returns a transaction distinct from its
input even though the enclosing container's capability check fails — both for
the resolved position's own parent (`$pos.node(depth)`, the paragraph) and
for the parent of the replaced slot (`$pos.node(depth - 1)`, the
blockquote) — because the code consults `tr.doc.canReplaceWith`, the document
root, instead. -/
theorem replaceNodeAtPos_enclosing_check_counterexample :
    replaceNodeAtPos canDoc 2 nX trX = some (cloneTr (trX.replaceWith 1 3 nX)) ∧
      cloneTr (trX.replaceWith 1 3 nX) ≠ trX ∧
      canDoc (rpX.node rpX.depth) (rpX.index rpX.depth)
        (rpX.indexAfter rpX.depth) nX.tyOf = false ∧
      canDoc (rpX.node (rpX.depth - 1)) (rpX.index rpX.depth)
        (rpX.indexAfter rpX.depth) nX.tyOf = false :=
  ⟨rfl, cloneTr_ne trX _ rfl, rfl, rfl⟩

/-- When no depth in `[1, i]` accepts (while every `after` offset there
resolves), the `safeInsert` loop falls through to the unchanged input
transaction. -/
theorem siGo_no_accept (can : PMNode → Nat → Nat → NodeTy → Bool) (n : PMNode)
    (tr : Transaction) (rpF : ResolvedPos) :
    ∀ i, (∀ j, 1 ≤ j → j ≤ i → siAccept can n tr rpF j = false) →
      (∀ j, 1 ≤ j → j ≤ i → (resolve tr.doc (rpF.afterN j)).isSome = true) →
      siGo can n tr rpF i = some tr := by
  intro i
  induction i with
  | zero => intro _ _; rfl
  | succ k ih =>
    intro hacc hres
    have hs := hres (k + 1) (by omega) (Nat.le_refl _)
    rcases hr : resolve tr.doc (rpF.afterN (k + 1)) with _ | rp
    · rw [hr] at hs; simp at hs
    · have ha := hacc (k + 1) (by omega) (Nat.le_refl _)
      unfold siAccept at ha
      rw [hr] at ha
      have ha' : can rp.parent (rp.index rp.depth) (rp.index rp.depth) n.tyOf = false := ha
      simp only [siGo]
      rw [hr]
      simp only [ha', Bool.false_eq_true, if_false]
      exact ih (fun j h1 h2 => hacc j h1 (by omega))
        (fun j h1 h2 => hres j h1 (by omega))

/-- When depth `m` is the innermost accepting depth within `[1, i]` (every
deeper candidate refuses while resolving), the `safeInsert` loop inserts
immediately after the ancestor at depth `m`. -/
theorem siGo_first_accept (can : PMNode → Nat → Nat → NodeTy → Bool) (n : PMNode)
    (tr : Transaction) (rpF : ResolvedPos) :
    ∀ i m, 1 ≤ m → m ≤ i → siAccept can n tr rpF m = true →
      (∀ j, m < j → j ≤ i → siAccept can n tr rpF j = false) →
      (∀ j, m < j → j ≤ i → (resolve tr.doc (rpF.afterN j)).isSome = true) →
      siGo can n tr rpF i = some (cloneTr (tr.insert (rpF.afterN m) n)) := by
  intro i
  induction i with
  | zero => intro m h1 h2; omega
  | succ k ih =>
    intro m h1 h2 hm hacc hres
    rcases Nat.lt_or_ge m (k + 1) with hmk | hmk
    · have hs := hres (k + 1) (by omega) (Nat.le_refl _)
      rcases hr : resolve tr.doc (rpF.afterN (k + 1)) with _ | rp
      · rw [hr] at hs; simp at hs
      · have ha := hacc (k + 1) (by omega) (Nat.le_refl _)
        unfold siAccept at ha
        rw [hr] at ha
        have ha' : can rp.parent (rp.index rp.depth) (rp.index rp.depth) n.tyOf = false := ha
        simp only [siGo]
        rw [hr]
        simp only [ha', Bool.false_eq_true, if_false]
        exact ih m h1 (by omega) hm
          (fun j hj1 hj2 => hacc j hj1 (by omega))
          (fun j hj1 hj2 => hres j hj1 (by omega))
    · have hm' : m = k + 1 := by omega
      subst hm'
      unfold siAccept at hm
      rcases hr : resolve tr.doc (rpF.afterN (k + 1)) with _ | rp
      · rw [hr] at hm; simp at hm
      · rw [hr] at hm
        have hm' : can rp.parent (rp.index rp.depth) (rp.index rp.depth) n.tyOf = true := hm
        simp only [siGo]
        rw [hr]
        simp [hm']

/-- C4: `safeInsert(node)(tr)` inserts at the cursor when the cursor's
immediate container permits the node's type at the cursor's child index;
otherwise it walks ancestor depths from the cursor's depth down to 1 and, at
the innermost depth whose `after`-offset container permits the insertion at
its index, inserts immediately after that ancestor (the committed clone being
distinct from the input); when no depth accepts, it returns the input
transaction unchanged.  The fallback parts assume each candidate `after`
offset resolves (a valid cursor over the transaction's document). -/
theorem safeInsert_spec (can : PMNode → Nat → Nat → NodeTy → Bool) (n : PMNode)
    (tr : Transaction) :
    (can tr.curSelection.selFrom.parent
        (tr.curSelection.selFrom.index tr.curSelection.selFrom.depth)
        (tr.curSelection.selFrom.index tr.curSelection.selFrom.depth) n.tyOf = true →
      safeInsert can n tr = some (cloneTr (tr.insert tr.curSelection.selFrom.pos n)) ∧
        cloneTr (tr.insert tr.curSelection.selFrom.pos n) ≠ tr) ∧
    (can tr.curSelection.selFrom.parent
        (tr.curSelection.selFrom.index tr.curSelection.selFrom.depth)
        (tr.curSelection.selFrom.index tr.curSelection.selFrom.depth) n.tyOf = false →
      (∀ m, 1 ≤ m → m ≤ tr.curSelection.selFrom.depth →
        siAccept can n tr tr.curSelection.selFrom m = true →
        (∀ j, m < j → j ≤ tr.curSelection.selFrom.depth →
          siAccept can n tr tr.curSelection.selFrom j = false) →
        (∀ j, m < j → j ≤ tr.curSelection.selFrom.depth →
          (resolve tr.doc (tr.curSelection.selFrom.afterN j)).isSome = true) →
        safeInsert can n tr =
            some (cloneTr (tr.insert (tr.curSelection.selFrom.afterN m) n)) ∧
          cloneTr (tr.insert (tr.curSelection.selFrom.afterN m) n) ≠ tr) ∧
      ((∀ j, 1 ≤ j → j ≤ tr.curSelection.selFrom.depth →
          siAccept can n tr tr.curSelection.selFrom j = false) →
        (∀ j, 1 ≤ j → j ≤ tr.curSelection.selFrom.depth →
          (resolve tr.doc (tr.curSelection.selFrom.afterN j)).isSome = true) →
        safeInsert can n tr = some tr)) := by
  constructor
  · intro hc
    refine ⟨?_, cloneTr_ne tr _ rfl⟩
    simp only [safeInsert]
    rw [hc]
    simp
  · intro hc
    constructor
    · intro m h1 h2 hm hacc hres
      refine ⟨?_, cloneTr_ne tr _ rfl⟩
      simp only [safeInsert]
      rw [hc]
      simp only [Bool.false_eq_true, if_false]
      exact siGo_first_accept can n tr tr.curSelection.selFrom
        tr.curSelection.selFrom.depth m h1 h2 hm hacc hres
    · intro hacc hres
      simp only [safeInsert]
      rw [hc]
      simp only [Bool.false_eq_true, if_false]
      exact siGo_no_accept can n tr tr.curSelection.selFrom
        tr.curSelection.selFrom.depth hacc hres

/-- Witness for C4 at a concrete input: with the cursor at position 3 of
`doc(blockquote(paragraph(text)))` and a schema where only the document root
(the grandparent container) accepts type `"x"`, the cursor's container
refuses, depth 2 refuses, and depth 1 accepts: the node is inserted at
position 5, immediately after the blockquote ancestor. -/
theorem safeInsert_spec_witness :
    safeInsert canG nN trG = some (cloneTr (trG.insert (rpG.afterN 1) nN)) ∧
      cloneTr (trG.insert (rpG.afterN 1) nN) ≠ trG ∧ rpG.afterN 1 = 5 := by
  have h := ((safeInsert_spec canG nN trG).2 rfl).1 1 (by decide) (by decide) rfl
    (by intro j h1 h2
        have hj : j = 2 := by
          have h2' : j ≤ rpG.depth := h2
          have hd : rpG.depth = 2 := by decide
          omega
        rw [hj]; rfl)
    (by intro j h1 h2
        have hj : j = 2 := by
          have h2' : j ≤ rpG.depth := h2
          have hd : rpG.depth = 2 := by decide
          omega
        rw [hj]; rfl)
  exact ⟨h.1, h.2, rfl⟩

end PMU
